import Mathlib

/- Verification of the concert device-control layer: calibrations, device and
   motor state handling, calibrated parameters, locking, and the autofocus
   search. Numeric values carried by parameters and positions are modelled as
   rationals; machine floats are abstracted to exact arithmetic. -/

set_option maxHeartbeats 1600000

/-! ## Linear calibration (src/concert/devices/motors/base.py, LinearCalibration) -/

/-- A linear calibration maps a number of motor steps to a real-world unit
(`steps_per_unit`, `offset_in_steps` as in the source; the source stores the
offset in `self._offset`). -/
structure LinearCalibration where
  steps_per_unit : ℚ
  offset : ℚ

/-- Source: `return value_in_steps / self._steps_per_unit - self._offset`.
In the source, dividing by a zero `steps_per_unit` does not produce a number
(the underlying numeric type yields an invalid value); in this embedding the
rational division by zero yields 0 — in both readings the round-trip equation
fails at `steps_per_unit = 0`, which is the only point where they differ. -/
def LinearCalibration.to_user (c : LinearCalibration) (value_in_steps : ℚ) : ℚ :=
  value_in_steps / c.steps_per_unit - c.offset

/-- Source: `return (value + self._offset) * self._steps_per_unit`. -/
def LinearCalibration.to_steps (c : LinearCalibration) (value : ℚ) : ℚ :=
  (value + c.offset) * c.steps_per_unit

/-! ## Device state handling (src/concert/devices/base.py, Device) -/

/-- The sentinel state label, `Device.NA = "n/a"`. -/
def deviceNA : String := "n/a"

/-- The state-relevant part of a `Device`: the declared state-label set
`self._states` and the current state `self._state`. -/
structure DeviceSt where
  states : List String
  state : String
deriving DecidableEq

/-- Device construction: `self._states = set([self.NA]); self._state = self.NA`. -/
def deviceInit : DeviceSt :=
  { states := [deviceNA], state := deviceNA }

/-- Source `Device._set_state`: if the label is in the declared set, update the
state and notify (`self['state'].notify()`); otherwise only log a warning and
leave everything unchanged. The returned Bool records whether observers were
notified. -/
def deviceSetState (d : DeviceSt) (s : String) : DeviceSt × Bool :=
  if s ∈ d.states then ({ d with state := s }, true) else (d, false)

/-! ## Motor state handling (src/concert/devices/motors/base.py, Motor) -/

/-- Motor construction ends with `self._state = None`. -/
def motorInitState : Option String := none

/-- Source `Motor._set_state`: `self._state = state; self.send(self._state)` —
the label is applied unconditionally (no membership check) and sent to
subscribers; the second component lists the messages sent by this call. -/
def motorSetState (_st : Option String) (s : String) : Option String × List String :=
  (some s, [s])

/-- The labels declared by `MotorState` in the source: `STANDBY = "standby"`,
`MOVING = "moving"` — and nothing else. -/
def motorStateLabels : List String := ["standby", "moving"]

/-- Observable events during a position-set: a notification of a state label,
or the hard-limit error surfacing to the caller. -/
inductive MoveEvent where
  | notified (label : String)
  | raisedHardLimit
deriving DecidableEq

/-- Running state of a motor during a move: the underlying device state, the
motor's `_state`, and the trace of observable events so far (in order). -/
structure MotorRunSt (σ : Type) where
  dev : σ
  state : Option String
  events : List MoveEvent

/-- Source `Motor._set_state` lifted to the running state: set the label and
send it (the send is recorded as a `notified` event on the trace). -/
def motorSetStateE {σ : Type} (m : MotorRunSt σ) (s : String) : MotorRunSt σ :=
  { m with state := some s, events := m.events ++ [MoveEvent.notified s] }

/-- Modelled from the spec: the concrete position-set state machine
(`_set_calibrated_position`, section 4.4) is not under src/ — only its base
class and tests are. Per the spec: 1. transition to `moving`; 2. convert the
user position via the calibration and invoke the raw setter; 3. if the device
reports a hard limit, transition to `limit` and fail with the hard-limit
error (raised after the notification); 4. otherwise transition to `standby`.
State transitions go through the source `Motor._set_state` (modelled by
`motorSetStateE`). The returned Bool records whether the hard-limit error was
raised to the caller. -/
def setCalibratedPosition {σ : Type} (toSteps : ℚ → ℚ) (rawSet : ℚ → σ → σ)
    (inHardLimit : σ → Bool) (v : ℚ) (m : MotorRunSt σ) : MotorRunSt σ × Bool :=
  let m1 := motorSetStateE m "moving"
  let m2 : MotorRunSt σ := { m1 with dev := rawSet (toSteps v) m1.dev }
  if inHardLimit m2.dev then
    let m3 := motorSetStateE m2 "limit"
    ({ m3 with events := m3.events ++ [MoveEvent.raisedHardLimit] }, true)
  else
    (motorSetStateE m2 "standby", false)

/-! ## Parameters and calibrated parameters
(src/concert/devices/motors/base.py, CalibratedParameter; the Parameter base
class of concert.base is not under src/ and is modelled from the spec). -/

/-- Unit tags carried by parameters (the needed fragment of the quantities
dimensions: `q.dimensionless`, `q.m`, `q.m / q.s`). -/
inductive Dimension where
  | dimensionless
  | length
  | lengthPerTime
deriving DecidableEq

/-- Errors a parameter set can surface, per the spec's error taxonomy:
read-only writes, limiter rejections, ValueError from a conversion, and the
UnitError that `CalibratedParameter.set` raises (naming the parameter). -/
inductive PError where
  | readOnly
  | limitErr
  | valueErr
  | unitErr (pname : String)
deriving DecidableEq

/-- Modelled from the spec: the Parameter class of concert.base is not under
src/. Per the spec (section 3/4.1): a named, unit-tagged slot with a getter,
an optional setter and an optional limiter predicate; the mutable value lives
in the owner (state type σ), not in the Parameter. -/
structure Param (σ : Type) where
  name : String
  unit : Dimension
  fget : σ → ℚ
  fset : Option (ℚ → σ → σ)
  limiter : Option (ℚ → Bool)

/-- Modelled from the spec: `Parameter.get()` invokes the getter. -/
def paramGet {σ : Type} (p : Param σ) (s : σ) : ℚ :=
  p.fget s

/-- Modelled from the spec: `Parameter.set(value)` fails with a read-only
error if there is no setter, fails with a limit error if the limiter rejects
the value, and otherwise runs the setter and then notifies observers.
Result: (error if any, state after the call, whether observers were
notified); on failure the state is unchanged and nobody is notified. -/
def paramSet {σ : Type} (p : Param σ) (v : ℚ) (s : σ) : Option PError × σ × Bool :=
  match p.fset with
  | none => (some PError.readOnly, s, false)
  | some f =>
    match p.limiter with
    | some l => if l v then (none, f v s, true) else (some PError.limitErr, s, false)
    | none => (none, f v s, true)

/-- A calibration as consumed by `CalibratedParameter`: conversion to user
units, and conversion to device steps which may raise ValueError on a unit
mismatch (modelled by returning none). -/
structure UserCalibration where
  to_user : ℚ → ℚ
  to_steps : ℚ → Option ℚ

/-- A `CalibratedParameter` is a Parameter together with its stored
calibration (`self._calibration`). -/
structure CalParam (σ : Type) where
  calibration : UserCalibration
  param : Param σ

/-- Source `CalibratedParameter.__init__`: stores the calibration and calls
the Parameter constructor with `unit=q.dimensionless` — the `unit` argument
it received is discarded. -/
def mkCalibratedParameter {σ : Type} (name : String) (calibration : UserCalibration)
    (fget : σ → ℚ) (fset : Option (ℚ → σ → σ)) (_unitArg : Dimension)
    (limiter : Option (ℚ → Bool)) : CalParam σ :=
  { calibration := calibration,
    param := { name := name, unit := Dimension.dimensionless, fget := fget,
               fset := fset, limiter := limiter } }

/-- Source `CalibratedParameter.get`: `value = super().get();
return self._calibration.to_user(value)`. -/
def cpGet {σ : Type} (cp : CalParam σ) (s : σ) : ℚ :=
  cp.calibration.to_user (paramGet cp.param s)

/-- Source `CalibratedParameter.set`: inside a try block convert the value
with `to_steps` and call the underlying `Parameter.set` with the converted
value; a ValueError raised inside the block is re-raised as
UnitError naming the parameter. On the conversion failing, the underlying
setter is never invoked and the state is returned unchanged. -/
def cpSet {σ : Type} (cp : CalParam σ) (v : ℚ) (s : σ) : Option PError × σ × Bool :=
  match cp.calibration.to_steps v with
  | none => (some (PError.unitErr cp.param.name), s, false)
  | some w =>
    match paramSet cp.param w s with
    | (some PError.valueErr, s1, n) => (some (PError.unitErr cp.param.name), s1, n)
    | r => r

/-- Source `Motor.__init__`: builds
`CalibratedParameter('position', calibration, self._get_position,
self._set_position, q.m, limiter, "Position of the motor")` — the unit
argument passed is a length. -/
def motorPositionParam {σ : Type} (calibration : UserCalibration) (fget : σ → ℚ)
    (fset : ℚ → σ → σ) (limiter : Option (ℚ → Bool)) : CalParam σ :=
  mkCalibratedParameter "position" calibration fget (some fset) Dimension.length limiter

/-- Source `ContinuousMotor.__init__`: adds
`CalibratedParameter('velocity', velocity_calibration, self._get_velocity,
self._set_velocity, q.m / q.s, velocity_limiter, "Velocity of the motor")`. -/
def continuousMotorVelocityParam {σ : Type} (calibration : UserCalibration)
    (fget : σ → ℚ) (fset : ℚ → σ → σ) (limiter : Option (ℚ → Bool)) : CalParam σ :=
  mkCalibratedParameter "velocity" calibration fget (some fset)
    Dimension.lengthPerTime limiter

/-! ## The device lock (src/concert/devices/base.py, Device.__enter__ / __exit__) -/

/-- The device's mutual-exclusion lock (`self._lock = threading.Lock()`). -/
structure LockSt where
  locked : Bool
deriving DecidableEq

/-- Source `Device.__enter__`: `self._lock.acquire()` — unconditional,
blocking acquisition (no try-acquire, no condition). -/
def deviceEnter (_ : LockSt) : LockSt :=
  { locked := true }

/-- Source `Device.__exit__`: `self._lock.release()` — runs on every exit
path of the with-block, exceptional or not. -/
def deviceExit (_ : LockSt) : LockSt :=
  { locked := false }

/-- The `with device:` critical section: enter acquires the lock, the body
runs while the lock is held (it sees the post-acquire lock state) and may
raise (Except.error); the exit hook releases the lock on both paths and the
body's outcome is propagated to the caller unchanged. -/
def withDevice {ε α : Type} (body : LockSt → Except ε α) (st : LockSt) :
    Except ε α × LockSt :=
  let st1 := deviceEnter st
  match body st1 with
  | Except.ok a => (Except.ok a, deviceExit st1)
  | Except.error e => (Except.error e, deviceExit st1)

/-! ## Motor.move and Motor.set_position (src/concert/devices/motors/base.py) -/

/-- Source `Motor.set_position`: `return self.set('position', position,
blocking)` — it forwards to the generic setter and returns its result. The
generic setter is abstracted as `setr` (result type ρ, state type σ). -/
def motorSetPosition {σ ρ : Type} (setr : ℚ → Bool → σ → ρ × σ)
    (position : ℚ) (blocking : Bool) (s : σ) : ρ × σ :=
  setr position blocking s

/-- Source `Motor.get_position`: `return self.get('position')`. -/
def motorGetPosition {σ : Type} (getr : σ → ℚ) (s : σ) : ℚ :=
  getr s

/-- Source `Motor.move`: `new_position = self.get_position() + delta;
self.set_position(new_position, blocking)` — the current position is read in
user units before the move, the blocking flag is forwarded unchanged, and the
result of set_position is discarded (move returns None). -/
def motorMove {σ ρ : Type} (getr : σ → ℚ) (setr : ℚ → Bool → σ → ρ × σ)
    (delta : ℚ) (blocking : Bool) (s : σ) : Unit × σ :=
  let newPosition := motorGetPosition getr s + delta
  ((), (motorSetPosition setr newPosition blocking s).2)

/-! ## The Focuser (concert/processes/focus.py is not under src/; modelled
from the spec, section 4.6, together with the motor's hard-limit and
soft-limiter policies). -/

/-- Motor travel bounds as the Focuser experiences them: `lo`/`hi` are the
hard limits (motion is clamped at them, per the spec's limit policy the
search treats them as a reachable boundary), `slo`/`shi` are the soft-limiter
bounds (a candidate outside them is rejected and the motor keeps its
position). A motor with no soft limiter is the special case
`slo ≤ lo ∧ hi ≤ shi`. -/
structure Bounds where
  lo : ℚ
  hi : ℚ
  slo : ℚ
  shi : ℚ
deriving DecidableEq

/-- Modelled from the spec: the net effect on the motor position of asking to
move to `cand`: hard limits clamp the progress at the boundary (section 4.6
limit policy), and a candidate rejected by the soft limiter leaves the motor
at its last permitted position (section 4.6 soft-limit policy). -/
def moveTo (B : Bounds) (p cand : ℚ) : ℚ :=
  let c := max B.lo (min B.hi cand)
  if B.slo ≤ c ∧ c ≤ B.shi then c else p

/-- Modelled from the spec: one iteration of the `focus` hill-climbing loop
(section 4.6): record the score at the current position, move by the current
signed step, record the new score; if the score increased keep the direction
and step, otherwise reverse the direction and halve the step magnitude. -/
def focusStep (f : ℚ → ℚ) (B : Bounds) (p s : ℚ) : ℚ × ℚ :=
  let p1 := moveTo B p (p + s)
  if f p < f p1 then (p1, s) else (p1, -(s / 2))

/-- Modelled from the spec: the `focus(step)` loop, terminating when the step
magnitude's absolute value falls below the configured epsilon; the fuel
argument only bounds the number of iterations (none = fuel exhausted), and
termination is proved as the existence of sufficient fuel. The returned value
is the motor position when the loop ends. -/
def focusFuel (f : ℚ → ℚ) (B : Bounds) (eps : ℚ) : ℕ → ℚ → ℚ → Option ℚ
  | 0, _, _ => none
  | Nat.succ n, p, s =>
    if |s| < eps then some p
    else
      focusFuel f B eps n (focusStep f B p s).1 (focusStep f B p s).2

/-- A position is feasible when it lies within the hard limits and the
soft-limiter bounds. -/
def Feas (B : Bounds) (p : ℚ) : Prop :=
  B.lo ≤ p ∧ p ≤ B.hi ∧ B.slo ≤ p ∧ p ≤ B.shi

/-- A feedback measure with a single maximum at `pk` over the feasible
positions: strictly increasing left of the peak, strictly decreasing right of
it. -/
def Uni (f : ℚ → ℚ) (B : Bounds) (pk : ℚ) : Prop :=
  (∀ x y, Feas B x → Feas B y → x < y → y ≤ pk → f x < f y) ∧
  (∀ x y, Feas B x → Feas B y → pk ≤ x → x < y → f y < f x)

/-- The current step points toward (or stands at) the peak. -/
def Good (pk p s : ℚ) : Prop :=
  (0 < s ∧ p ≤ pk) ∨ (s < 0 ∧ pk ≤ p)

/-- The current step points strictly away from the peak. -/
def Wrong (pk p s : ℚ) : Prop :=
  (0 < s ∧ pk < p) ∨ (s < 0 ∧ p < pk)

/-- The loop invariant of the search: the position is feasible and either the
step points toward the peak (with the position bracketed within 6 step
magnitudes unless the step still has at least one halving of budget left), or
it points away but the position is bracketed within 2 step magnitudes unless
at least two halvings of budget remain. -/
def FocusInv (B : Bounds) (pk eps p s : ℚ) : Prop :=
  Feas B p ∧
    ((Good pk p s ∧ (|p - pk| ≤ 6 * |s| ∨ eps ≤ |s|)) ∨
     (Wrong pk p s ∧ (|p - pk| ≤ 2 * |s| ∨ 2 * eps ≤ |s|)))

/-- Mirror of the bounds under negation of the coordinate. -/
def mirrorB (B : Bounds) : Bounds :=
  { lo := -B.hi, hi := -B.lo, slo := -B.shi, shi := -B.slo }

/-- Mirror of the feedback measure under negation of the coordinate. -/
def fneg (f : ℚ → ℚ) : ℚ → ℚ :=
  fun x => f (-x)

/-- Iterations an upward leg can still improve: how many full steps fit
between the position and the upper hard limit. -/
def legMeasure (B : Bounds) (s p : ℚ) : ℕ :=
  Nat.ceil ((B.hi - p) / s)

/-- Concrete feedback measure for counterexamples and witnesses: a single
maximum at 0, strictly decreasing with distance. -/
def cexF : ℚ → ℚ :=
  fun x => -|x|

/-- Concrete bounds for counterexamples and witnesses: hard limits at ±100,
soft limiter not binding. -/
def cexB : Bounds :=
  { lo := -100, hi := 100, slo := -100, shi := 100 }

/-- Concrete calibration whose conversions are the identity and never fail. -/
def idCalibration : UserCalibration :=
  { to_user := fun v => v, to_steps := fun v => some v }

/-- Concrete calibration whose step conversion always raises ValueError
(unit mismatch on every value). -/
def failCalibration : UserCalibration :=
  { to_user := fun v => v, to_steps := fun _ => none }

/-- Concrete parameter over a single rational cell. -/
def cellParam : Param ℚ :=
  { name := "position", unit := Dimension.dimensionless, fget := fun s => s,
    fset := some (fun v _ => v), limiter := none }

/-- Concrete calibrated parameter with the identity calibration. -/
def cellCalParam : CalParam ℚ :=
  { calibration := idCalibration, param := cellParam }

/-- Concrete calibrated parameter whose conversion always fails. -/
def failCalParam : CalParam ℚ :=
  { calibration := failCalibration, param := cellParam }

/-! ## Theorems: calibration round trip (C2) -/

/-- Claim C2 counterexample: the claim quantifies over every
LinearCalibration, any steps_per_unit included; with steps_per_unit = 0 and
offset 5 the round trip fails at x = 1 (the source produces no valid number
when dividing by zero steps_per_unit, this embedding produces -5 — either
way the round-trip equation is false). -/
theorem c2_counterexample :
    LinearCalibration.to_user ⟨0, 5⟩ (LinearCalibration.to_steps ⟨0, 5⟩ 1) ≠ 1 := by
  norm_num [LinearCalibration.to_user, LinearCalibration.to_steps]

/-- Claim C2 (amended): for every LinearCalibration with nonzero
steps_per_unit and every value x, both round trips are exact:
to_user (to_steps x) = x and to_steps (to_user x) = x. -/
theorem c2_round_trip_amended (c : LinearCalibration) (x : ℚ)
    (h : c.steps_per_unit ≠ 0) :
    c.to_user (c.to_steps x) = x ∧ c.to_steps (c.to_user x) = x := by
  unfold LinearCalibration.to_user LinearCalibration.to_steps
  constructor
  · field_simp
  · field_simp
    ring

/-- Claim C2 witness: the amended round trip at steps_per_unit = 2,
offset 3, x = 5. -/
theorem c2_witness :
    ((⟨2, 3⟩ : LinearCalibration)).steps_per_unit ≠ 0 ∧
      (LinearCalibration.to_user ⟨2, 3⟩ (LinearCalibration.to_steps ⟨2, 3⟩ 5) = 5 ∧
        LinearCalibration.to_steps ⟨2, 3⟩ (LinearCalibration.to_user ⟨2, 3⟩ 5) = 5) :=
  ⟨by norm_num, c2_round_trip_amended ⟨2, 3⟩ 5 (by norm_num)⟩

/-! ## Theorems: device and motor state (C3) -/

/-- Claim C3 counterexample: the claim extends the Device state discipline to
every device class including Motor, but the source Motor (a ConcertObject,
not a Device) initialises its state to None — not "n/a" — and its _set_state
applies any label unconditionally: an unknown label changes the state instead
of leaving it unchanged. -/
theorem c3_counterexample :
    motorInitState ≠ some "n/a" ∧
    (motorSetState motorInitState "bogus").1 = some "bogus" ∧
    (motorSetState motorInitState "bogus").1 ≠ motorInitState := by
  refine ⟨by decide, rfl, by decide⟩

/-- Claim C3 (amended): for Device (and subclasses using Device._set_state),
the state starts as "n/a", membership in the declared label set is invariant
under _set_state, a declared label is applied with notification, and an
unknown label leaves the device unchanged and notifies nobody (only a warning
is logged, nothing is raised). Motor is excluded: it overrides _set_state
without the membership check (see the counterexample). -/
theorem c3_device_state_amended :
    deviceInit.state = "n/a" ∧ deviceInit.state ∈ deviceInit.states ∧
    (∀ (d : DeviceSt) (s : String), d.state ∈ d.states →
        (deviceSetState d s).1.state ∈ (deviceSetState d s).1.states) ∧
    (∀ (d : DeviceSt) (s : String), s ∈ d.states →
        deviceSetState d s = ({ d with state := s }, true)) ∧
    (∀ (d : DeviceSt) (s : String), s ∉ d.states →
        deviceSetState d s = (d, false)) := by
  refine ⟨rfl, by simp [deviceInit, deviceNA], ?_, ?_, ?_⟩
  · intro d s hd
    unfold deviceSetState
    by_cases hs : s ∈ d.states
    · simp [hs]
    · simp [hs, hd]
  · intro d s hs
    simp [deviceSetState, hs]
  · intro d s hs
    simp [deviceSetState, hs]

/-- Claim C3 witness: the amended device discipline applied concretely — an
unknown label "bogus" leaves the fresh device unchanged without notifying,
and the declared label "n/a" is applied with notification. -/
theorem c3_witness :
    deviceSetState deviceInit "bogus" = (deviceInit, false) ∧
    deviceSetState deviceInit "n/a" = ({ deviceInit with state := "n/a" }, true) :=
  ⟨c3_device_state_amended.2.2.2.2 deviceInit "bogus" (by decide),
   c3_device_state_amended.2.2.2.1 deviceInit "n/a" (by decide)⟩

/-! ## Theorems: hard-limit move ordering and the motor label set (C4) -/

/-- Claim C4 counterexample: the claim says `limit` is a member of the
motor's state-label set alongside `standby` and `moving`, but the source
MotorState declares only STANDBY and MOVING — there is no `limit` label. -/
theorem c4_counterexample :
    "limit" ∉ motorStateLabels ∧ "standby" ∈ motorStateLabels ∧
      "moving" ∈ motorStateLabels := by
  refine ⟨by decide, by decide, by decide⟩

/-- Claim C4 (amended): a position-set that hits a hard limit notifies
`moving` before the hard-limit error is raised (the trace is exactly
notified moving, notified limit, raised) and leaves the motor's final state
`limit`; however `limit` is not a member of MotorState's declared label set —
the motor applies state labels without consulting any declared set. -/
theorem c4_move_notifies_amended {σ : Type} (toSteps : ℚ → ℚ) (rawSet : ℚ → σ → σ)
    (inHardLimit : σ → Bool) (v : ℚ) (m : MotorRunSt σ)
    (h : inHardLimit (rawSet (toSteps v) m.dev) = true) :
    (setCalibratedPosition toSteps rawSet inHardLimit v m).2 = true ∧
    (setCalibratedPosition toSteps rawSet inHardLimit v m).1.state = some "limit" ∧
    (setCalibratedPosition toSteps rawSet inHardLimit v m).1.events =
      m.events ++ [MoveEvent.notified "moving", MoveEvent.notified "limit",
        MoveEvent.raisedHardLimit] ∧
    "limit" ∉ motorStateLabels := by
  refine ⟨?_, ?_, ?_, by decide⟩ <;>
    simp [setCalibratedPosition, motorSetStateE, h]

/-- Claim C4 witness: the amended statement at a concrete motor whose device
always reports a hard limit. -/
theorem c4_witness :
    (setCalibratedPosition (fun v => v) (fun _ u => u) (fun _ => true) 0
        (⟨(), none, []⟩ : MotorRunSt Unit)).2 = true ∧
    (setCalibratedPosition (fun v => v) (fun _ u => u) (fun _ => true) 0
        (⟨(), none, []⟩ : MotorRunSt Unit)).1.state = some "limit" ∧
    (setCalibratedPosition (fun v => v) (fun _ u => u) (fun _ => true) 0
        (⟨(), none, []⟩ : MotorRunSt Unit)).1.events =
      ([] : List MoveEvent) ++ [MoveEvent.notified "moving", MoveEvent.notified "limit",
        MoveEvent.raisedHardLimit] ∧
    "limit" ∉ motorStateLabels :=
  c4_move_notifies_amended (fun v => v) (fun _ u => u) (fun _ => true) 0
    ⟨(), none, []⟩ rfl

/-! ## Theorems: exported parameter units (C5) -/

/-- Claim C5 counterexample: the exported position parameter's unit is not a
length — CalibratedParameter.__init__ discards the unit argument it receives
and constructs the underlying Parameter with q.dimensionless. -/
theorem c5_counterexample :
    (@motorPositionParam ℚ idCalibration (fun s => s) (fun v _ => v)
        none).param.unit ≠ Dimension.length := by
  decide

/-- Claim C5 (amended): Motor passes a length unit argument and
ContinuousMotor a length-per-time unit argument when building their
calibrated parameters, but CalibratedParameter.__init__ overrides both: the
exported Parameter's unit is q.dimensionless in every case. -/
theorem c5_units_amended {σ : Type} (c : UserCalibration) (fget : σ → ℚ)
    (fset : ℚ → σ → σ) (lim : Option (ℚ → Bool)) (vc : UserCalibration)
    (vget : σ → ℚ) (vset : ℚ → σ → σ) (vlim : Option (ℚ → Bool)) :
    (motorPositionParam c fget fset lim).param.unit = Dimension.dimensionless ∧
    (continuousMotorVelocityParam vc vget vset vlim).param.unit =
      Dimension.dimensionless :=
  ⟨rfl, rfl⟩

/-! ## Theorems: calibration pass-through on get and set (C6) -/

/-- Claim C6: CalibratedParameter.get returns to_user applied to the raw
value from the underlying getter, and set converts through to_steps and
invokes the underlying setter with the converted value (limiter permitting),
then notifies; the calibration is always interposed on both paths. -/
theorem c6_calibration_passthrough {σ : Type} (cp : CalParam σ) (s : σ) (v w : ℚ)
    (f : ℚ → σ → σ)
    (hconv : cp.calibration.to_steps v = some w)
    (hset : cp.param.fset = some f)
    (hlim : ∀ l, cp.param.limiter = some l → l w = true) :
    cpGet cp s = cp.calibration.to_user (cp.param.fget s) ∧
    cpSet cp v s = (none, f w s, true) := by
  constructor
  · rfl
  · unfold cpSet paramSet
    rw [hconv, hset]
    cases hl : cp.param.limiter with
    | none => rfl
    | some l => simp [hlim l hl]

/-- Claim C6 witness: pass-through at the identity calibration over a single
cell, setting the value 3 on state 0. -/
theorem c6_witness :
    cellCalParam.calibration.to_steps 3 = some 3 ∧
    cellCalParam.param.fset = some (fun v _ => v) ∧
    (cpGet cellCalParam 0 = cellCalParam.calibration.to_user (cellCalParam.param.fget 0) ∧
      cpSet cellCalParam 3 0 = (none, 3, true)) :=
  ⟨rfl, rfl,
    c6_calibration_passthrough cellCalParam 0 3 3 (fun v _ => v) rfl rfl
      (fun _ h => nomatch h)⟩

/-! ## Theorems: unit mismatch surfaces as UnitError, state untouched (C7) -/

/-- Claim C7: if the calibration conversion in set raises ValueError, the
caller of set receives a UnitError naming the parameter, the underlying
setter is never invoked, the state is unchanged and nobody is notified. -/
theorem c7_unit_error {σ : Type} (cp : CalParam σ) (v : ℚ) (s : σ)
    (h : cp.calibration.to_steps v = none) :
    cpSet cp v s = (some (PError.unitErr cp.param.name), s, false) := by
  unfold cpSet
  rw [h]

/-- Claim C7 witness: the failing conversion at value 7 on state 2 yields the
UnitError naming "position" and returns the state unchanged. -/
theorem c7_witness :
    failCalParam.calibration.to_steps 7 = none ∧
    cpSet failCalParam 7 2 = (some (PError.unitErr "position"), 2, false) :=
  ⟨rfl, c7_unit_error failCalParam 7 2 rfl⟩

/-! ## Theorems: the critical-section lock (C9) -/

/-- Claim C9: entering the critical section acquires the lock
unconditionally, the body runs against the acquired lock, its outcome —
normal or exceptional — is propagated unchanged, and the lock is released on
every exit path: the final lock state is always unlocked. -/
theorem c9_lock_released {ε α : Type} (body : LockSt → Except ε α) (st : LockSt) :
    (deviceEnter st).locked = true ∧
    (withDevice body st).2.locked = false ∧
    (withDevice body st).1 = body (deviceEnter st) := by
  refine ⟨rfl, ?_, ?_⟩ <;>
    cases hb : body (deviceEnter st) <;>
      simp [withDevice, deviceExit, hb]

/-! ## Theorems: Motor.move semantics (C10) -/

/-- Claim C10: move(delta, blocking) reads the current position in user units
from the pre-move state, asks set_position for that position plus delta with
the blocking flag forwarded unchanged, and returns no value — while
set_position itself returns the result of the underlying set. -/
theorem c10_move_adds_delta {σ ρ : Type} (getr : σ → ℚ) (setr : ℚ → Bool → σ → ρ × σ)
    (delta : ℚ) (blocking : Bool) (s : σ) (position : ℚ) :
    motorMove getr setr delta blocking s =
      ((), (motorSetPosition setr (motorGetPosition getr s + delta) blocking s).2) ∧
    motorSetPosition setr position blocking s = setr position blocking s :=
  ⟨rfl, rfl⟩

/-! ## Focuser helper lemmas: unfolding and the move analysis -/

theorem focusFuel_succ_halt (f : ℚ → ℚ) (B : Bounds) (eps : ℚ) (n : ℕ) (p s : ℚ)
    (h : |s| < eps) : focusFuel f B eps (n + 1) p s = some p := by
  simp [focusFuel, h]

theorem focusFuel_succ_go (f : ℚ → ℚ) (B : Bounds) (eps : ℚ) (n : ℕ) (p s : ℚ)
    (h : ¬ |s| < eps) :
    focusFuel f B eps (n + 1) p s =
      focusFuel f B eps n (focusStep f B p s).1 (focusStep f B p s).2 := by
  simp [focusFuel, h]

theorem focusStep_improve (f : ℚ → ℚ) (B : Bounds) (p s : ℚ)
    (h : f p < f (moveTo B p (p + s))) :
    focusStep f B p s = (moveTo B p (p + s), s) := by
  simp [focusStep, h]

theorem focusStep_reverse (f : ℚ → ℚ) (B : Bounds) (p s : ℚ)
    (h : ¬ f p < f (moveTo B p (p + s))) :
    focusStep f B p s = (moveTo B p (p + s), -(s / 2)) := by
  simp [focusStep, h]

theorem moveTo_cases (B : Bounds) (p s : ℚ) (hlh : B.lo ≤ B.hi)
    (hFp : Feas B p) (hs : 0 < s) :
    moveTo B p (p + s) = p ∨
      (p < moveTo B p (p + s) ∧ moveTo B p (p + s) ≤ p + s ∧
        Feas B (moveTo B p (p + s))) := by
  obtain ⟨h1, h2, h3, h4⟩ := hFp
  unfold moveTo
  set c := max B.lo (min B.hi (p + s)) with hc
  have hpc : p ≤ c := le_max_of_le_right (le_min h2 (by linarith))
  have hcs : c ≤ p + s := max_le (by linarith) (min_le_right _ _)
  have hcl : B.lo ≤ c := le_max_left _ _
  have hch : c ≤ B.hi := max_le hlh (min_le_left _ _)
  by_cases hsoft : B.slo ≤ c ∧ c ≤ B.shi
  · rcases eq_or_lt_of_le hpc with heq | hlt
    · left
      simp [hsoft, heq.symm]
    · right
      refine ⟨?_, ?_, ?_⟩ <;> simp [hsoft]
      · exact hlt
      · exact hcs
      · exact ⟨hcl, hch, hsoft.1, hsoft.2⟩
  · left
    simp [hsoft]

theorem moveTo_stall_lt (B : Bounds) (p s pk : ℚ) (hlh : B.lo ≤ B.hi)
    (hFp : Feas B p) (hFk : Feas B pk) (hs : 0 < s)
    (hst : moveTo B p (p + s) = p) : pk < p + s := by
  obtain ⟨h1, h2, h3, h4⟩ := hFp
  obtain ⟨k1, k2, k3, k4⟩ := hFk
  unfold moveTo at hst
  set c := max B.lo (min B.hi (p + s)) with hc
  have hpc : p ≤ c := le_max_of_le_right (le_min h2 (by linarith))
  have hcs : c ≤ p + s := max_le (by linarith) (min_le_right _ _)
  by_cases hsoft : B.slo ≤ c ∧ c ≤ B.shi
  · simp [hsoft] at hst
    by_cases hin : p + s ≤ B.hi
    · have : c = p + s := by
        rw [hc, min_eq_right hin, max_eq_right (by linarith)]
      rw [hst] at this
      linarith
    · have : c = B.hi := by
        rw [hc, min_eq_left (by linarith), max_eq_right hlh]
      rw [hst] at this
      linarith
  · push_neg at hsoft
    have : B.shi < c := hsoft (by linarith)
    linarith

theorem moveTo_mem_of_ne (B : Bounds) (p cand : ℚ) (hlh : B.lo ≤ B.hi)
    (h : moveTo B p cand ≠ p) : B.lo ≤ moveTo B p cand ∧ moveTo B p cand ≤ B.hi := by
  simp only [moveTo] at h ⊢
  by_cases hsoft : B.slo ≤ max B.lo (min B.hi cand) ∧ max B.lo (min B.hi cand) ≤ B.shi
  · rw [if_pos hsoft]
    exact ⟨le_max_left _ _, max_le hlh (min_le_left _ _)⟩
  · rw [if_neg hsoft] at h
    exact absurd rfl h

theorem moveTo_eq_of_le (B : Bounds) (p s : ℚ) (hlo : B.lo ≤ p) (hs : 0 < s)
    (hhi : p + s ≤ B.hi) (h : moveTo B p (p + s) ≠ p) :
    moveTo B p (p + s) = p + s := by
  unfold moveTo at h ⊢
  rw [min_eq_right hhi, max_eq_right (by linarith)] at h ⊢
  by_cases hsoft : B.slo ≤ p + s ∧ p + s ≤ B.shi
  · simp [hsoft]
  · simp [hsoft] at h

theorem moveTo_eq_hi_of_gt (B : Bounds) (p s : ℚ) (hlh : B.lo ≤ B.hi) (hs : 0 < s)
    (hhi : B.hi < p + s) (h : moveTo B p (p + s) ≠ p) :
    moveTo B p (p + s) = B.hi := by
  unfold moveTo at h ⊢
  rw [min_eq_left (by linarith), max_eq_right hlh] at h ⊢
  by_cases hsoft : B.slo ≤ B.hi ∧ B.hi ≤ B.shi
  · simp [hsoft]
  · simp [hsoft] at h

theorem moveTo_self_of_hi (B : Bounds) (s : ℚ) (hlh : B.lo ≤ B.hi) (hs : 0 < s) :
    moveTo B B.hi (B.hi + s) = B.hi := by
  unfold moveTo
  rw [min_eq_left (by linarith), max_eq_right hlh]
  by_cases hsoft : B.slo ≤ B.hi ∧ B.hi ≤ B.shi
  · simp [hsoft]
  · simp [hsoft]

/-! ## Focuser helper lemmas: the mirror simulation -/

theorem abs_neg_half (s : ℚ) : |(-(s / 2))| = |s| / 2 := by
  rw [abs_neg, abs_div]
  norm_num

theorem clamp_neg (B : Bounds) (hlh : B.lo ≤ B.hi) (x : ℚ) :
    max (-B.hi) (min (-B.lo) (-x)) = -(max B.lo (min B.hi x)) := by
  rcases le_total x B.lo with h1 | h1 <;> rcases le_total x B.hi with h2 | h2 <;>
    simp only [min_def, max_def] <;> split_ifs <;> linarith

theorem moveTo_neg (B : Bounds) (hlh : B.lo ≤ B.hi) (p c : ℚ) :
    moveTo (mirrorB B) (-p) (-c) = -(moveTo B p c) := by
  simp only [moveTo, mirrorB]
  rw [clamp_neg B hlh c]
  have hiff : (-B.shi ≤ -(max B.lo (min B.hi c)) ∧ -(max B.lo (min B.hi c)) ≤ -B.slo) ↔
      (B.slo ≤ max B.lo (min B.hi c) ∧ max B.lo (min B.hi c) ≤ B.shi) := by
    constructor <;> rintro ⟨a, b⟩ <;> constructor <;> linarith
  rw [if_congr hiff rfl rfl, apply_ite Neg.neg]

theorem focusStep_neg (f : ℚ → ℚ) (B : Bounds) (hlh : B.lo ≤ B.hi) (p s : ℚ) :
    focusStep (fneg f) (mirrorB B) (-p) (-s) =
      (-(focusStep f B p s).1, -(focusStep f B p s).2) := by
  simp only [focusStep, fneg]
  rw [show -p + -s = -(p + s) by ring, moveTo_neg B hlh p (p + s)]
  simp only [neg_neg]
  by_cases him : f p < f (moveTo B p (p + s))
  · rw [if_pos him, if_pos him]
  · rw [if_neg him, if_neg him]
    simp only [Prod.mk.injEq, true_and]
    ring

theorem focusFuel_neg (f : ℚ → ℚ) (B : Bounds) (eps : ℚ) (hlh : B.lo ≤ B.hi) :
    ∀ (n : ℕ) (p s : ℚ),
      focusFuel (fneg f) (mirrorB B) eps n (-p) (-s) =
        Option.map (fun x => -x) (focusFuel f B eps n p s) := by
  intro n
  induction n with
  | zero => intro p s; rfl
  | succ n ih =>
    intro p s
    by_cases he : |s| < eps
    · rw [focusFuel_succ_halt _ _ _ _ _ _ (by rwa [abs_neg]),
        focusFuel_succ_halt _ _ _ _ _ _ he]
      rfl
    · rw [focusFuel_succ_go _ _ _ _ _ _ (by rwa [abs_neg]),
        focusFuel_succ_go _ _ _ _ _ _ he, focusStep_neg f B hlh p s]
      exact ih (focusStep f B p s).1 (focusStep f B p s).2

theorem Feas_neg (B : Bounds) (p : ℚ) : Feas (mirrorB B) (-p) ↔ Feas B p := by
  simp only [Feas, mirrorB]
  constructor <;> rintro ⟨a, b, c, d⟩ <;> refine ⟨?_, ?_, ?_, ?_⟩ <;> linarith

theorem Good_neg (pk p s : ℚ) : Good (-pk) (-p) (-s) ↔ Good pk p s := by
  simp only [Good]
  constructor <;> rintro (⟨a, b⟩ | ⟨a, b⟩)
  · exact Or.inr ⟨by linarith, by linarith⟩
  · exact Or.inl ⟨by linarith, by linarith⟩
  · exact Or.inr ⟨by linarith, by linarith⟩
  · exact Or.inl ⟨by linarith, by linarith⟩

theorem Wrong_neg (pk p s : ℚ) : Wrong (-pk) (-p) (-s) ↔ Wrong pk p s := by
  simp only [Wrong]
  constructor <;> rintro (⟨a, b⟩ | ⟨a, b⟩)
  · exact Or.inr ⟨by linarith, by linarith⟩
  · exact Or.inl ⟨by linarith, by linarith⟩
  · exact Or.inr ⟨by linarith, by linarith⟩
  · exact Or.inl ⟨by linarith, by linarith⟩

theorem Uni_neg (f : ℚ → ℚ) (B : Bounds) (pk : ℚ) (hU : Uni f B pk) :
    Uni (fneg f) (mirrorB B) (-pk) := by
  obtain ⟨hUl, hUr⟩ := hU
  constructor
  · intro x y hx hy hxy hyk
    have hx' : Feas B (-x) := by
      rw [← Feas_neg]
      simpa using hx
    have hy' : Feas B (-y) := by
      rw [← Feas_neg]
      simpa using hy
    exact hUr (-y) (-x) hy' hx' (by linarith) (by linarith)
  · intro x y hx hy hkx hxy
    have hx' : Feas B (-x) := by
      rw [← Feas_neg]
      simpa using hx
    have hy' : Feas B (-y) := by
      rw [← Feas_neg]
      simpa using hy
    exact hUl (-y) (-x) hy' hx' (by linarith) (by linarith)

theorem FocusInv_neg (B : Bounds) (pk eps p s : ℚ) :
    FocusInv (mirrorB B) (-pk) eps (-p) (-s) ↔ FocusInv B pk eps p s := by
  simp only [FocusInv]
  rw [Feas_neg, Good_neg, Wrong_neg, show -p - -pk = -(p - pk) by ring, abs_neg,
    abs_neg]

/-! ## Focuser helper lemmas: termination -/

theorem legMeasure_lt (B : Bounds) (s p : ℚ) (hs : 0 < s) (hhi : p + s ≤ B.hi) :
    legMeasure B s (p + s) < legMeasure B s p := by
  have hs' : s ≠ 0 := ne_of_gt hs
  have hx1 : (1 : ℚ) ≤ (B.hi - p) / s := by
    rw [le_div_iff hs]
    linarith
  have heq : (B.hi - (p + s)) / s = (B.hi - p) / s - 1 := by
    field_simp
    ring
  have h0 : (0 : ℚ) ≤ (B.hi - p) / s - 1 := by linarith
  have hceil := Nat.ceil_lt_add_one h0
  unfold legMeasure
  rw [heq, Nat.lt_ceil]
  linarith

theorem legMeasure_zero (B : Bounds) (s p : ℚ) (hs : 0 < s)
    (h : legMeasure B s p = 0) : B.hi ≤ p := by
  unfold legMeasure at h
  rw [Nat.ceil_eq_zero] at h
  by_contra hc
  push_neg at hc
  have : 0 < (B.hi - p) / s := div_pos (by linarith) hs
  linarith

theorem legMeasure_hi (B : Bounds) (s : ℚ) : legMeasure B s B.hi = 0 := by
  unfold legMeasure
  simp

theorem focus_leg_pos (f : ℚ → ℚ) (B : Bounds) (eps s : ℚ) (hs : 0 < s)
    (hlh : B.lo ≤ B.hi)
    (hrev : ∀ q, ∃ n r, focusFuel f B eps n q (-(s / 2)) = some r) :
    ∀ (m : ℕ) (p : ℚ), B.lo ≤ p → p ≤ B.hi → legMeasure B s p ≤ m →
      ∃ n r, focusFuel f B eps n p s = some r := by
  intro m
  induction m with
  | zero =>
    intro p hlo hhi hm
    have hp : p = B.hi := le_antisymm hhi (legMeasure_zero B s p hs (Nat.le_zero.mp hm))
    by_cases he : |s| < eps
    · exact ⟨1, p, focusFuel_succ_halt f B eps 0 p s he⟩
    · have hst : moveTo B p (p + s) = p := by
        rw [hp]
        exact moveTo_self_of_hi B s hlh hs
      obtain ⟨n, r, hr⟩ := hrev p
      refine ⟨n + 1, r, ?_⟩
      rw [focusFuel_succ_go f B eps n p s he,
        focusStep_reverse f B p s (by rw [hst]; exact lt_irrefl _), hst]
      exact hr
  | succ m ih =>
    intro p hlo hhi hm
    by_cases he : |s| < eps
    · exact ⟨1, p, focusFuel_succ_halt f B eps 0 p s he⟩
    · by_cases him : f p < f (moveTo B p (p + s))
      · have hne : moveTo B p (p + s) ≠ p := by
          intro hEq
          rw [hEq] at him
          exact lt_irrefl _ him
        obtain ⟨hl1, hh1⟩ := moveTo_mem_of_ne B p (p + s) hlh hne
        have hm1 : legMeasure B s (moveTo B p (p + s)) ≤ m := by
          by_cases hin : p + s ≤ B.hi
          · rw [moveTo_eq_of_le B p s hlo hs hin hne]
            have h2 := legMeasure_lt B s p hs hin
            omega
          · push_neg at hin
            rw [moveTo_eq_hi_of_gt B p s hlh hs hin hne, legMeasure_hi]
            omega
        obtain ⟨n, r, hr⟩ := ih (moveTo B p (p + s)) hl1 hh1 hm1
        refine ⟨n + 1, r, ?_⟩
        rw [focusFuel_succ_go f B eps n p s he, focusStep_improve f B p s him]
        exact hr
      · obtain ⟨n, r, hr⟩ := hrev (moveTo B p (p + s))
        refine ⟨n + 1, r, ?_⟩
        rw [focusFuel_succ_go f B eps n p s he, focusStep_reverse f B p s him]
        exact hr

theorem focus_leg_entry_pos (f : ℚ → ℚ) (B : Bounds) (eps s : ℚ) (hs : 0 < s)
    (hlh : B.lo ≤ B.hi)
    (hrev : ∀ q, ∃ n r, focusFuel f B eps n q (-(s / 2)) = some r) (p : ℚ) :
    ∃ n r, focusFuel f B eps n p s = some r := by
  by_cases he : |s| < eps
  · exact ⟨1, p, focusFuel_succ_halt f B eps 0 p s he⟩
  · by_cases him : f p < f (moveTo B p (p + s))
    · have hne : moveTo B p (p + s) ≠ p := by
        intro hEq
        rw [hEq] at him
        exact lt_irrefl _ him
      obtain ⟨hl1, hh1⟩ := moveTo_mem_of_ne B p (p + s) hlh hne
      obtain ⟨n, r, hr⟩ := focus_leg_pos f B eps s hs hlh hrev
        (legMeasure B s (moveTo B p (p + s))) (moveTo B p (p + s)) hl1 hh1 le_rfl
      refine ⟨n + 1, r, ?_⟩
      rw [focusFuel_succ_go f B eps n p s he, focusStep_improve f B p s him]
      exact hr
    · obtain ⟨n, r, hr⟩ := hrev (moveTo B p (p + s))
      refine ⟨n + 1, r, ?_⟩
      rw [focusFuel_succ_go f B eps n p s he, focusStep_reverse f B p s him]
      exact hr

theorem focus_halts_of_lt (f : ℚ → ℚ) (B : Bounds) (eps : ℚ) (hlh : B.lo ≤ B.hi)
    (heps : 0 < eps) :
    ∀ (k : ℕ) (s p : ℚ), |s| < eps * 2 ^ k →
      ∃ n r, focusFuel f B eps n p s = some r := by
  intro k
  induction k with
  | zero =>
    intro s p h
    rw [pow_zero, mul_one] at h
    exact ⟨1, p, focusFuel_succ_halt f B eps 0 p s h⟩
  | succ k ih =>
    intro s p h
    by_cases he : |s| < eps
    · exact ⟨1, p, focusFuel_succ_halt f B eps 0 p s he⟩
    · have hhalf : |s| / 2 < eps * 2 ^ k := by
        rw [pow_succ] at h
        linarith
      rcases lt_trichotomy s 0 with hneg | hzero | hpos
      · have hlhm : (mirrorB B).lo ≤ (mirrorB B).hi := by
          simp only [mirrorB]
          linarith
        have hrevm : ∀ q, ∃ n r,
            focusFuel (fneg f) (mirrorB B) eps n q (-(-s / 2)) = some r := by
          intro q
          obtain ⟨n, r, hr⟩ := ih (-(s / 2)) (-q) (by rw [abs_neg_half]; exact hhalf)
          refine ⟨n, -r, ?_⟩
          have hsim := focusFuel_neg f B eps hlh n (-q) (-(s / 2))
          rw [neg_neg, neg_neg] at hsim
          rw [show -(-s / 2) = s / 2 by ring, hsim, hr]
          rfl
        obtain ⟨n, r, hr⟩ := focus_leg_entry_pos (fneg f) (mirrorB B) eps (-s)
          (by linarith) hlhm hrevm (-p)
        have hsim := focusFuel_neg f B eps hlh n p s
        rw [hsim] at hr
        rcases hopt : focusFuel f B eps n p s with _ | r0
        · rw [hopt] at hr
          exact absurd hr (by simp)
        · exact ⟨n, r0, hopt⟩
      · exfalso
        exact he (by rw [hzero, abs_zero]; exact heps)
      · exact focus_leg_entry_pos f B eps s hpos hlh
          (fun q => ih (-(s / 2)) q (by rw [abs_neg_half]; exact hhalf)) p

theorem focus_terminates (f : ℚ → ℚ) (B : Bounds) (eps p s : ℚ)
    (heps : 0 < eps) (hlh : B.lo ≤ B.hi) :
    ∃ n r, focusFuel f B eps n p s = some r := by
  obtain ⟨k, hk⟩ := pow_unbounded_of_one_lt (|s| / eps) (by norm_num : (1 : ℚ) < 2)
  have hk2 : |s| < eps * 2 ^ k := by
    rw [div_lt_iff heps] at hk
    calc |s| < 2 ^ k * eps := hk
    _ = eps * 2 ^ k := mul_comm _ _
  exact focus_halts_of_lt f B eps hlh heps k s p hk2

/-! ## Focuser helper lemmas: the bracketing invariant -/

theorem inv_core_stall (B : Bounds) (pk eps p s : ℚ) (hs : 0 < s)
    (hFp : Feas B p)
    (hcls : (Good pk p s ∧ (|p - pk| ≤ 6 * |s| ∨ eps ≤ |s|)) ∨
      (Wrong pk p s ∧ (|p - pk| ≤ 2 * |s| ∨ 2 * eps ≤ |s|)))
    (hpk : pk < p + s) :
    FocusInv B pk eps p (-(s / 2)) := by
  refine ⟨hFp, ?_⟩
  rcases lt_trichotomy p pk with hppk | hppk | hppk
  · right
    refine ⟨Or.inr ⟨by linarith, hppk⟩, Or.inl ?_⟩
    rw [abs_neg_half, abs_of_pos hs, abs_of_neg (by linarith : p - pk < 0)]
    linarith
  · left
    refine ⟨Or.inr ⟨by linarith, le_of_eq hppk.symm⟩, Or.inl ?_⟩
    rw [hppk, sub_self, abs_zero]
    positivity
  · rcases hcls with ⟨hG, _⟩ | ⟨_, hbd⟩
    · exfalso
      rcases hG with ⟨_, h2⟩ | ⟨h1, _⟩
      · linarith
      · linarith
    · left
      refine ⟨Or.inr ⟨by linarith, le_of_lt hppk⟩, ?_⟩
      rcases hbd with hbd | hbig
      · left
        rw [abs_of_pos hs, abs_of_pos (sub_pos.mpr hppk)] at hbd
        rw [abs_neg_half, abs_of_pos hs, abs_of_pos (sub_pos.mpr hppk)]
        linarith
      · right
        rw [abs_neg_half, abs_of_pos hs]
        rw [abs_of_pos hs] at hbig
        linarith

theorem inv_core_improve (f : ℚ → ℚ) (B : Bounds) (pk eps p s p1 : ℚ)
    (hU : Uni f B pk) (hs : 0 < s) (heps : eps ≤ |s|)
    (hFp : Feas B p) (hF1 : Feas B p1)
    (hcls : (Good pk p s ∧ (|p - pk| ≤ 6 * |s| ∨ eps ≤ |s|)) ∨
      (Wrong pk p s ∧ (|p - pk| ≤ 2 * |s| ∨ 2 * eps ≤ |s|)))
    (hlt : p < p1) (hle : p1 ≤ p + s) (him : f p < f p1) :
    FocusInv B pk eps p1 s := by
  refine ⟨hF1, ?_⟩
  rcases le_or_lt p1 pk with h1 | h1
  · exact Or.inl ⟨Or.inl ⟨hs, h1⟩, Or.inr heps⟩
  · rcases hcls with ⟨hG, _⟩ | ⟨hW, _⟩
    · rcases hG with ⟨_, hppk⟩ | ⟨hsneg, _⟩
      · right
        refine ⟨Or.inl ⟨hs, h1⟩, Or.inl ?_⟩
        rw [abs_of_pos hs, abs_of_pos (sub_pos.mpr h1)]
        linarith
      · exact (lt_asymm hs hsneg).elim
    · rcases hW with ⟨_, hppk⟩ | ⟨hsneg, _⟩
      · exact absurd him (not_lt.mpr (hU.2 p p1 hFp hF1 (le_of_lt hppk) hlt).le)
      · exact (lt_asymm hs hsneg).elim

theorem inv_core_reverse_moved (f : ℚ → ℚ) (B : Bounds) (pk eps p s p1 : ℚ)
    (hU : Uni f B pk) (hs : 0 < s)
    (hFp : Feas B p) (hF1 : Feas B p1)
    (hcls : (Good pk p s ∧ (|p - pk| ≤ 6 * |s| ∨ eps ≤ |s|)) ∨
      (Wrong pk p s ∧ (|p - pk| ≤ 2 * |s| ∨ 2 * eps ≤ |s|)))
    (hlt : p < p1) (hle : p1 ≤ p + s) (him : ¬ f p < f p1) :
    FocusInv B pk eps p1 (-(s / 2)) := by
  refine ⟨hF1, ?_⟩
  rcases hcls with ⟨hG, _⟩ | ⟨hW, hbd⟩
  · rcases hG with ⟨_, hppk⟩ | ⟨hsneg, _⟩
    · have hpk1 : pk < p1 := by
        by_contra hc
        push_neg at hc
        exact him (hU.1 p p1 hFp hF1 hlt hc)
      left
      refine ⟨Or.inr ⟨by linarith, le_of_lt hpk1⟩, Or.inl ?_⟩
      rw [abs_neg_half, abs_of_pos hs, abs_of_pos (sub_pos.mpr hpk1)]
      linarith
    · exact (lt_asymm hs hsneg).elim
  · rcases hW with ⟨_, hppk⟩ | ⟨hsneg, _⟩
    · left
      refine ⟨Or.inr ⟨by linarith, by linarith⟩, ?_⟩
      rcases hbd with hbd | hbig
      · left
        rw [abs_of_pos hs, abs_of_pos (sub_pos.mpr hppk)] at hbd
        rw [abs_neg_half, abs_of_pos hs,
          abs_of_pos (by linarith : (0 : ℚ) < p1 - pk)]
        linarith
      · right
        rw [abs_neg_half, abs_of_pos hs]
        rw [abs_of_pos hs] at hbig
        linarith
    · exact (lt_asymm hs hsneg).elim

theorem inv_step_pos (f : ℚ → ℚ) (B : Bounds) (pk eps p s : ℚ)
    (hlh : B.lo ≤ B.hi) (hU : Uni f B pk) (hFk : Feas B pk) (hs : 0 < s)
    (heps : eps ≤ |s|) (hinv : FocusInv B pk eps p s) :
    FocusInv B pk eps (focusStep f B p s).1 (focusStep f B p s).2 := by
  obtain ⟨hFp, hcls⟩ := hinv
  rcases moveTo_cases B p s hlh hFp hs with hst | ⟨hlt, hle, hF1⟩
  · rw [focusStep_reverse f B p s (by rw [hst]; exact lt_irrefl _), hst]
    exact inv_core_stall B pk eps p s hs hFp hcls
      (moveTo_stall_lt B p s pk hlh hFp hFk hs hst)
  · by_cases him : f p < f (moveTo B p (p + s))
    · rw [focusStep_improve f B p s him]
      exact inv_core_improve f B pk eps p s (moveTo B p (p + s)) hU hs heps hFp hF1
        hcls hlt hle him
    · rw [focusStep_reverse f B p s him]
      exact inv_core_reverse_moved f B pk eps p s (moveTo B p (p + s)) hU hs hFp hF1
        hcls hlt hle him

theorem inv_step (f : ℚ → ℚ) (B : Bounds) (pk eps p s : ℚ) (hlh : B.lo ≤ B.hi)
    (hU : Uni f B pk) (hFk : Feas B pk) (heps0 : 0 < eps) (heps : eps ≤ |s|)
    (hinv : FocusInv B pk eps p s) :
    FocusInv B pk eps (focusStep f B p s).1 (focusStep f B p s).2 := by
  rcases lt_trichotomy s 0 with hneg | hzero | hpos
  · have h1 : FocusInv (mirrorB B) (-pk) eps (-p) (-s) :=
      (FocusInv_neg B pk eps p s).mpr hinv
    have h2 := inv_step_pos (fneg f) (mirrorB B) (-pk) eps (-p) (-s)
      (by simp only [mirrorB]; linarith) (Uni_neg f B pk hU)
      ((Feas_neg B pk).mpr hFk) (by linarith) (by rwa [abs_neg]) h1
    rw [focusStep_neg f B hlh p s] at h2
    exact (FocusInv_neg B pk eps _ _).mp h2
  · exfalso
    rw [hzero, abs_zero] at heps
    linarith
  · exact inv_step_pos f B pk eps p s hlh hU hFk hpos heps hinv

theorem focusFuel_bound (f : ℚ → ℚ) (B : Bounds) (pk eps : ℚ) (hlh : B.lo ≤ B.hi)
    (hU : Uni f B pk) (hFk : Feas B pk) (heps0 : 0 < eps) :
    ∀ (n : ℕ) (p s r : ℚ), FocusInv B pk eps p s →
      focusFuel f B eps n p s = some r → |r - pk| ≤ 6 * eps := by
  intro n
  induction n with
  | zero =>
    intro p s r _ h
    exact absurd h (by simp [focusFuel])
  | succ n ih =>
    intro p s r hinv h
    by_cases he : |s| < eps
    · rw [focusFuel_succ_halt f B eps n p s he] at h
      have hpr := Option.some.inj h
      subst hpr
      rcases hinv.2 with ⟨_, hbd | hbig⟩ | ⟨_, hbd | hbig⟩
      · calc |p - pk| ≤ 6 * |s| := hbd
        _ ≤ 6 * eps := by linarith
      · exact absurd hbig (not_le.mpr he)
      · calc |p - pk| ≤ 2 * |s| := hbd
        _ ≤ 6 * eps := by linarith
      · exfalso
        linarith
    · rw [focusFuel_succ_go f B eps n p s he] at h
      exact ih _ _ r (inv_step f B pk eps p s hlh hU hFk heps0 (not_lt.mp he) hinv) h

theorem good_or_wrong (pk p s : ℚ) (hs : s ≠ 0) : Good pk p s ∨ Wrong pk p s := by
  rcases lt_trichotomy s 0 with h | h | h
  · rcases le_or_lt pk p with h2 | h2
    · exact Or.inl (Or.inr ⟨h, h2⟩)
    · exact Or.inr (Or.inr ⟨h, h2⟩)
  · exact absurd h hs
  · rcases le_or_lt p pk with h2 | h2
    · exact Or.inl (Or.inl ⟨h, h2⟩)
    · exact Or.inr (Or.inl ⟨h, h2⟩)

theorem cexF_uni : Uni cexF cexB 0 := by
  constructor
  · intro x y _ _ hxy hy0
    simp only [cexF]
    rw [abs_of_nonpos (by linarith : x ≤ (0 : ℚ)), abs_of_nonpos hy0]
    linarith
  · intro x y _ _ h0x hxy
    simp only [cexF]
    rw [abs_of_nonneg h0x, abs_of_nonneg (by linarith : (0 : ℚ) ≤ y)]
    linarith

theorem cexB_feas_zero : Feas cexB 0 := by
  refine ⟨?_, ?_, ?_, ?_⟩ <;> norm_num [cexB]

theorem cexB_feas_fifty : Feas cexB 50 := by
  refine ⟨?_, ?_, ?_, ?_⟩ <;> norm_num [cexB]

/-! ## Theorems: Focuser termination (C8) -/

/-- Claim C8: for every feedback measure, bounds and start, with a positive
configured epsilon (and ordered hard limits), the focus loop terminates — the
step is halved on every reversal, the position changes within the bounded
travel range are finite per leg, so the step magnitude eventually falls below
epsilon and the loop ends; it never oscillates indefinitely. -/
theorem c8_focuser_terminates (f : ℚ → ℚ) (B : Bounds) (eps p s : ℚ)
    (heps : 0 < eps) (hlh : B.lo ≤ B.hi) :
    ∃ n r, focusFuel f B eps n p s = some r :=
  focus_terminates f B eps p s heps hlh

/-- Claim C8 witness: termination at the concrete dummy measure, bounds ±100,
epsilon 1, start 0, step 4. -/
theorem c8_witness :
    (0 : ℚ) < 1 ∧ cexB.lo ≤ cexB.hi ∧
      ∃ n r, focusFuel cexF cexB 1 n 0 4 = some r :=
  ⟨by norm_num, by norm_num [cexB],
    c8_focuser_terminates cexF cexB 1 0 4 (by norm_num) (by norm_num [cexB])⟩

/-! ## Theorems: Focuser convergence (C1) -/

/-- Claim C1 counterexample: the claim promises, for every single-maximum
measure and every non-zero initial step, a final position within epsilon of
the peak. With the peak at 0, start 50, epsilon 1 and the non-zero initial
step 1/2, the loop terminates immediately (the step is already below
epsilon) at position 50, which is not within epsilon of the peak. -/
theorem c1_counterexample :
    Uni cexF cexB 0 ∧ Feas cexB 0 ∧ Feas cexB 50 ∧ ((1 : ℚ) / 2) ≠ 0 ∧
      focusFuel cexF cexB 1 1 50 (1 / 2) = some 50 ∧ ¬ |(50 : ℚ) - 0| ≤ 1 := by
  refine ⟨cexF_uni, cexB_feas_zero, cexB_feas_fifty, by norm_num, ?_, by norm_num⟩
  exact focusFuel_succ_halt cexF cexB 1 0 50 (1 / 2)
    (by rw [abs_of_pos (by norm_num : (0 : ℚ) < 1 / 2)]; norm_num)

/-- Claim C1 (amended): for every feedback measure with a single maximum at a
feasible position pk, every feasible start, every positive epsilon and every
initial step of magnitude at least 2 · epsilon, the focus task completes and
the final position is within 6 · epsilon of pk. Since pk is the maximum over
the positions reachable under hard-limit clamping and soft-limiter rejection,
this includes the boundary cases: when the true maximum lies beyond a hard
limit or the soft bounds, the search converges to within 6 · epsilon of the
corresponding boundary, raising nothing and not looping forever. -/
theorem c1_focus_converges_amended (f : ℚ → ℚ) (B : Bounds) (pk eps p s : ℚ)
    (heps : 0 < eps) (hlh : B.lo ≤ B.hi) (hU : Uni f B pk) (hFk : Feas B pk)
    (hFp : Feas B p) (hstep : 2 * eps ≤ |s|) :
    ∃ n r, focusFuel f B eps n p s = some r ∧ |r - pk| ≤ 6 * eps := by
  obtain ⟨n, r, hr⟩ := focus_terminates f B eps p s heps hlh
  refine ⟨n, r, hr, ?_⟩
  have hs0 : s ≠ 0 := by
    intro h
    rw [h, abs_zero] at hstep
    linarith
  have hinv : FocusInv B pk eps p s := by
    refine ⟨hFp, ?_⟩
    rcases good_or_wrong pk p s hs0 with hG | hW
    · exact Or.inl ⟨hG, Or.inr (by linarith)⟩
    · exact Or.inr ⟨hW, Or.inr hstep⟩
  exact focusFuel_bound f B pk eps hlh hU hFk heps n p s r hinv hr

/-- Claim C1 witness: the amended convergence at the concrete dummy measure
(peak 0), start 50, epsilon 1, initial step 4. -/
theorem c1_witness :
    (0 : ℚ) < 1 ∧ cexB.lo ≤ cexB.hi ∧ Uni cexF cexB 0 ∧ Feas cexB 0 ∧
      Feas cexB 50 ∧ 2 * (1 : ℚ) ≤ |(4 : ℚ)| ∧
      ∃ n r, focusFuel cexF cexB 1 n 50 4 = some r ∧ |r - 0| ≤ 6 * 1 :=
  ⟨by norm_num, by norm_num [cexB], cexF_uni, cexB_feas_zero, cexB_feas_fifty,
    by rw [abs_of_pos (by norm_num : (0 : ℚ) < 4)]; norm_num,
    c1_focus_converges_amended cexF cexB 0 1 50 4 (by norm_num) (by norm_num [cexB])
      cexF_uni cexB_feas_zero cexB_feas_fifty
      (by rw [abs_of_pos (by norm_num : (0 : ℚ) < 4)]; norm_num)⟩
